import Mathlib

set_option maxRecDepth 8000

/-!
Verification of the text-art video filter (`src/main.rs`).

The program maps each decoded video frame to a low-resolution luminance
grid, picks a glyph per grid cell by brightness, and stamps the glyphs into
a full-resolution output frame which is re-encoded.  The source performs
several computations in IEEE-754 binary32 (`f32`) arithmetic; those are
modelled exactly over `ℚ` by `rnd32`, round-to-nearest with ties to even
at 24 significand bits.  All values occurring in the modelled code paths
are far inside the normal range of binary32 (no overflow, no subnormals),
so exponent-range effects do not arise; a value that `f32` can only
represent as an infinity or NaN (the division by zero in the font-sizing
code when the measured ink height is 0) is modelled explicitly as
`Option.none` where it occurs.

External collaborators (ffmpeg decode/encode/scale, the `ab_glyph`
rasterizer) are abstracted as function parameters; everything else is
translated from the source.
-/

/-! ### Exact model of `f32` rounding -/

/-- Fuel-bounded floor of the base-2 logarithm of a natural number.
Structural recursion on the fuel so that the kernel can evaluate it. -/
def log2fuel : ℕ → ℕ → ℕ
  | 0, _ => 0
  | fuel + 1, n => if n < 2 then 0 else log2fuel fuel (n / 2) + 1

/-- `2 ^ e` as a rational, for an integer exponent `e`, computed with
natural-number powers so that the kernel can evaluate it. -/
def pow2 (e : ℤ) : ℚ :=
  if 0 ≤ e then ((2 ^ e.toNat : ℕ) : ℚ) else 1 / ((2 ^ (-e).toNat : ℕ) : ℚ)

/-- Round a rational to the nearest integer, ties to even
(`Rat.floor` is used rather than `⌊·⌋` so the kernel can evaluate it). -/
def rne (x : ℚ) : ℤ :=
  if x - x.floor < 1 / 2 then x.floor
  else if 1 / 2 < x - x.floor then x.floor + 1
  else if x.floor % 2 = 0 then x.floor else x.floor + 1

/-- The binary exponent `e` of a positive rational `q`, chosen so that
`q / 2^e ∈ [2^23, 2^24)`: the scaling used by binary32 rounding.
Computed through `log2fuel` on `⌊q * 2^64⌋`, which is exact for the
range `2^-64 ≤ q < 2^64` (ample for every value this program computes). -/
def expOf (q : ℚ) : ℤ :=
  (log2fuel 192 (q.num.toNat * 2 ^ 64 / q.den) : ℤ) - 87

/-- Rounding of a nonnegative rational to the nearest IEEE-754 binary32
value (ties to even).  Negative inputs do not occur in the modelled code
paths, and the modelled values stay far inside the normal binary32 range. -/
def rnd32 (q : ℚ) : ℚ :=
  if q ≤ 0 then 0 else ((rne (q / pow2 (expOf q)) : ℤ) : ℚ) * pow2 (expOf q)

/-! ### Luminance-to-glyph quantization (`Decoder::decode_frames`, main.rs:56,69)

`main.rs:56`: `let lum_to_char = self.char_set.len() as f32 / 256.;`
`main.rs:69`: `let char_idx = (luminosity[i] as f32 * lum_to_char) as usize;` -/

/-- The per-run factor `char_set.len() as f32 / 256.` (main.rs:56). -/
def lumToChar (n : ℕ) : ℚ := rnd32 (rnd32 (n : ℚ) / 256)

/-- The glyph index chosen for a luminance sample `v` with an atlas of `n`
glyphs (main.rs:69); `as usize` on a nonnegative `f32` truncates. -/
def charIdx (v n : ℕ) : ℕ := (rnd32 ((v : ℚ) * lumToChar n)).floor.toNat

/-! ### Scan map (`RenderData::new`, main.rs:17-26) -/

/-- One scan-map entry `(i as f32 * dst as f32 / grid as f32) as usize`
(main.rs:23-24). -/
def scanCoord (i dim grid : ℕ) : ℕ :=
  (rnd32 (rnd32 (rnd32 (i : ℚ) * rnd32 (dim : ℚ)) / rnd32 (grid : ℚ))).floor.toNat

/-- The `RenderData` struct (main.rs:8-15). -/
structure RenderData where
  r_w : ℕ
  r_h : ℕ
  dst_w : ℕ
  dst_h : ℕ
  x : List ℕ
  y : List ℕ
deriving DecidableEq

/-- `RenderData::new` (main.rs:17-26). -/
def RenderData.new (r_w r_h dst_w dst_h : ℕ) : RenderData :=
  { r_w := r_w, r_h := r_h, dst_w := dst_w, dst_h := dst_h,
    x := (List.range r_w).map fun i => scanCoord i dst_w r_w,
    y := (List.range r_h).map fun i => scanCoord i dst_h r_h }

/-! ### Frame compositing (`Decoder::decode_frames`, main.rs:55-84)

Slice accesses are modelled as checked operations returning `Option`:
a `none` result corresponds to an out-of-bounds panic in the Rust code. -/

/-- `bytes[start..start + line.len()].copy_from_slice(line)` (main.rs:74);
`none` models the out-of-bounds panic. -/
def copyInto (buf : List ℕ) (start : ℕ) (line : List ℕ) : Option (List ℕ) :=
  if start + line.length ≤ buf.length
  then some (buf.take start ++ line ++ buf.drop (start + line.length))
  else none

/-- The per-cell stamping loop `for line in stamp { ...; start += stride; }`
(main.rs:72-76). -/
def stampLines (stride : ℕ) : List (List ℕ) → List ℕ → ℕ → Option (List ℕ)
  | [], buf, _ => some buf
  | l :: ls, buf, start =>
    match copyInto buf start l with
    | none => none
    | some b => stampLines stride ls b (start + stride)

/-- The inner column loop `for x in self.render_data.x.iter()`
(main.rs:68-78), carrying the running luminance index `i`. -/
def compositeCols (lum : List ℕ) (cs : List (List (List ℕ))) (stride yc : ℕ) :
    List ℕ → List ℕ → ℕ → Option (List ℕ × ℕ)
  | [], buf, i => some (buf, i)
  | x :: xs, buf, i =>
    match lum[i]? with
    | none => none
    | some v =>
      match cs[charIdx v cs.length]? with
      | none => none
      | some stamp =>
        match stampLines stride stamp buf (x + yc * stride) with
        | none => none
        | some buf' => compositeCols lum cs stride yc xs buf' (i + 1)

/-- The outer row loop `for y in self.render_data.y.iter()` with the
stride-padding skip `i += padding` (main.rs:67-80). -/
def compositeRows (lum : List ℕ) (cs : List (List (List ℕ))) (stride pad : ℕ)
    (xs : List ℕ) : List ℕ → List ℕ → ℕ → Option (List ℕ)
  | [], buf, _ => some buf
  | yc :: ys, buf, i =>
    match compositeCols lum cs stride yc xs buf i with
    | none => none
    | some (buf', i') => compositeRows lum cs stride pad xs ys buf' (i' + pad)

/-- One full compositing pass over the luminance plane `buf` of the output
frame (main.rs:60-80); `pad = scaled_frame.stride(0) - r_w` (main.rs:60). -/
def composite (lum : List ℕ) (cs : List (List (List ℕ))) (xs ys : List ℕ)
    (stride strideS : ℕ) (buf : List ℕ) : Option (List ℕ) :=
  compositeRows lum cs stride (strideS - xs.length) xs ys buf 0

/-! ### The output-frame template (`Decoder::new`, main.rs:39-53) -/

/-- The three planes of the reused output frame; `y` is the luminance
plane, `cb`/`cr` the two chroma planes. -/
structure OutFrame where
  y : List ℕ
  cb : List ℕ
  cr : List ℕ
deriving DecidableEq

/-- `Decoder::new` builds the template frame and fills both chroma planes
with the neutral value 127 (main.rs:40-42).  The luminance plane's
contents at allocation are unspecified in the source (zeros chosen here);
it is fully overwritten by the compositor before use. -/
def outFrameNew (yLen cbLen crLen : ℕ) : OutFrame :=
  { y := List.replicate yLen 0,
    cb := List.replicate cbLen 127,
    cr := List.replicate crLen 127 }

/-- Compositing one decoded frame into the template: only the luminance
plane is rewritten (main.rs:65-80). -/
def decodeOne (cs : List (List (List ℕ))) (xs ys : List ℕ) (stride strideS : ℕ)
    (f : OutFrame) (lum : List ℕ) : Option OutFrame :=
  (composite lum cs xs ys stride strideS f.y).map fun y' => { f with y := y' }

/-- The sequence of composite operations performed over a whole run, each
reusing the same template frame (main.rs:57-83 driven by main.rs:342-369). -/
def processAll (cs : List (List (List ℕ))) (xs ys : List ℕ)
    (stride strideS : ℕ) : List (List ℕ) → OutFrame → Option OutFrame
  | [], f => some f
  | l :: ls, f =>
    match decodeOne cs xs ys stride strideS f l with
    | none => none
    | some f' => processAll cs xs ys stride strideS ls f'

/-! ### Font auto-fit sizing (`construct_char_set`, main.rs:106-145)

The third-party rasterizer (`ab_glyph`) is abstracted as a measure function
`m : Option ℚ → ℕ × ℕ` giving the maximal ink-box (width, height) measured
at a requested font size.  A size of `none` stands for a non-finite `f32`
(infinity or NaN); once the size is non-finite it stays non-finite under
the loop's multiplicative updates. -/

/-- The `while glyphs_height > font_h` loop (main.rs:142-145), run with
`fuel` remaining iterations.  `none` means the loop is still running after
`fuel` iterations; the loop itself has no iteration bound and no failure
outcome.  Each iteration performs
`adj_font_h *= font_h as f32 / glyphs_height as f32` (main.rs:143). -/
def fitLoop (m : Option ℚ → ℕ × ℕ) (fontH : ℕ) :
    ℕ → Option ℚ → ℕ → ℕ → Option (Option ℚ × ℕ × ℕ)
  | 0, _, _, _ => none
  | fuel + 1, adj, w, h =>
    if h ≤ fontH then some (adj, w, h)
    else
      let adj' := adj.map fun a => rnd32 (a * rnd32 (rnd32 (fontH : ℚ) / rnd32 (h : ℚ)))
      fitLoop m fontH fuel adj' (m adj').1 (m adj').2

/-- The initial measurement and scale correction (main.rs:137-140):
`func(font_h as f32)` then
`adj_font_h = font_h as f32 * font_h as f32 / glyphs_height as f32`.
When the measured height is 0 the `f32` division yields a non-finite
value, modelled as `none`. -/
def sizingInit (m : Option ℚ → ℕ × ℕ) (fontH : ℕ) : Option ℚ × ℕ × ℕ :=
  let h0 := (m (some (rnd32 (fontH : ℚ)))).2
  let adj1 : Option ℚ :=
    if h0 = 0 then none
    else some (rnd32 (rnd32 (rnd32 (fontH : ℚ) * rnd32 (fontH : ℚ)) / rnd32 (h0 : ℚ)))
  (adj1, (m adj1).1, (m adj1).2)

/-- The whole sizing phase of `construct_char_set` (main.rs:137-145):
initial measurement, scale correction, then the fit loop. -/
def sizing (m : Option ℚ → ℕ × ℕ) (fontH fuel : ℕ) : Option (Option ℚ × ℕ × ℕ) :=
  fitLoop m fontH fuel (sizingInit m fontH).1 (sizingInit m fontH).2.1
    (sizingInit m fontH).2.2

/-! ### Glyph rendering (`construct_char_set`, main.rs:147-166)

Each glyph's rasterizer callback sequence is abstracted as a list of
`(x, y, inked)` triples holding the canvas coordinates the code derives
from the draw position and the centering pad, together with the result of
the `v > font_thickness` comparison; the in-bounds guard
`(x_i as u32) < glyphs_width && (y_i as u32) < glyphs_height`
(main.rs:158) is the code's. -/

/-- Rendering one glyph onto the `glyphs_height × glyphs_width` zero canvas
(main.rs:150-161); each in-bounds draw call writes 255 or 0. -/
def renderGlyph (w h : ℕ) (writes : List (ℕ × ℕ × Bool)) : List (List ℕ) :=
  writes.foldl
    (fun bmp p =>
      if p.1 < w ∧ p.2.1 < h then
        bmp.set p.2.1 ((bmp.getD p.2.1 []).set p.1 (if p.2.2 then 255 else 0))
      else bmp)
    (List.replicate h (List.replicate w 0))

/-- The rendering loop over all glyphs (main.rs:148-164): a character
without an outline (`None` glyph) keeps the all-zero canvas. -/
def renderAtlas (w h : ℕ) (gws : List (Option (List (ℕ × ℕ × Bool)))) :
    List (List (List ℕ)) :=
  gws.map fun og =>
    match og with
    | none => List.replicate h (List.replicate w 0)
    | some ws => renderGlyph w h ws

/-! ### End-of-stream pipeline shutdown (main.rs:369-372)

Frames and packets are abstracted as naturals; `comp` abstracts the
downscale-and-composite transform applied to each drained frame.  The
decoder at end of stream holds a list of frames it will still emit
(`receive_frame` pops them in order); the encoder holds the frames it has
been fed but not yet emitted as packets, which `receive_packet` yields
after `send_eof`. -/

/-- The trace events of the shutdown sequence. -/
inductive PEv where
  | decEof
  | sendFrame (f : ℕ)
  | encEof
  | writePkt (p : ℕ)
  | trailer
deriving DecidableEq

/-- `decode_frames` at end of stream (main.rs:57-83): drains every frame
still buffered in the decoder, composites it and feeds it to the encoder.
Returns the encoder's buffer and the emitted events. -/
def decodeFramesEnd (comp : ℕ → ℕ) : List ℕ → List ℕ → List ℕ × List PEv
  | [], encBuf => (encBuf, [])
  | f :: fs, encBuf =>
    let r := decodeFramesEnd comp fs (encBuf ++ [comp f])
    (r.1, PEv.sendFrame (comp f) :: r.2)

/-- `encode_frames` after the encoder received eof (main.rs:96-104):
drains every buffered packet to the container. -/
def encodeFramesEnd : List ℕ → List PEv
  | [] => []
  | p :: ps => PEv.writePkt p :: encodeFramesEnd ps

/-- The shutdown sequence of `main` (main.rs:369-372):
`decoder.end(&mut encoder)` (= `send_eof` + `decode_frames`, main.rs:90-93),
`encoder.send_eof()`, `encode_frames(...)`, `out_ctx.write_trailer()`. -/
def closeFile (comp : ℕ → ℕ) (decPending encBuf : List ℕ) : List PEv :=
  PEv.decEof :: (decodeFramesEnd comp decPending encBuf).2
    ++ PEv.encEof :: encodeFramesEnd (decodeFramesEnd comp decPending encBuf).1
    ++ [PEv.trailer]

/-! ### Chapter and metadata copying (main.rs:312-317) -/

/-- An input chapter: id, timebase, start, end, and its metadata
dictionary.  (`end` is a Lean keyword, hence the field name `stop`.) -/
structure Chapter where
  id : ℤ
  timeBase : ℤ × ℤ
  start : ℤ
  stop : ℤ
  metadata : List (String × String)
deriving DecidableEq

/-- The chapter-copying loop (main.rs:312-316): a chapter is added only
`if let Some(title) = chapter.metadata().get("title")`, and `add_chapter`
carries over id, timebase, start, end and sets only the title metadata. -/
def copyChapters (chs : List Chapter) : List Chapter :=
  chs.filterMap fun c =>
    (c.metadata.lookup "title").map fun t =>
      { id := c.id, timeBase := c.timeBase, start := c.start, stop := c.stop,
        metadata := [("title", t)] }

/-- The chapter list and container-level metadata of the output container
after the header-writing phase. -/
structure OutMux where
  chapters : List Chapter
  metadata : List (String × String)
deriving DecidableEq

/-- Header-phase state (main.rs:312-317): chapters through the title
filter, container metadata copied verbatim
(`out_ctx.set_metadata(in_ctx.metadata().to_owned())`). -/
def writeHeaderData (inCh : List Chapter) (inMeta : List (String × String)) :
    OutMux :=
  { chapters := copyChapters inCh, metadata := inMeta }

/-! ## Properties of the `f32` model -/

theorem log2fuel_spec : ∀ fuel n : ℕ, 0 < n → n < 2 ^ fuel →
    2 ^ log2fuel fuel n ≤ n ∧ n < 2 ^ (log2fuel fuel n + 1) := by
  intro fuel
  induction fuel with
  | zero =>
    intro n h1 h2
    simp only [pow_zero] at h2
    omega
  | succ f ih =>
    intro n h1 h2
    by_cases hn : n < 2
    · simp only [log2fuel, if_pos hn, pow_zero, zero_add, pow_one]
      omega
    · have h2' : n / 2 < 2 ^ f := by
        have : n < 2 ^ f * 2 := by
          rw [← pow_succ]; exact h2
        omega
      obtain ⟨ihl, ihr⟩ := ih (n / 2) (by omega) h2'
      simp only [log2fuel, if_neg hn]
      have e1 : (2 : ℕ) ^ (log2fuel f (n / 2) + 1) = 2 ^ log2fuel f (n / 2) * 2 :=
        pow_succ 2 _
      have e2 : (2 : ℕ) ^ (log2fuel f (n / 2) + 1 + 1) = 2 ^ (log2fuel f (n / 2) + 1) * 2 :=
        pow_succ 2 _
      omega

theorem ratFloor_eq_floor (q : ℚ) : q.floor = ⌊q⌋ :=
  (Rat.floor_def' q).trans Rat.floor_def.symm

theorem pow2_eq_zpow (e : ℤ) : pow2 e = (2 : ℚ) ^ e := by
  unfold pow2
  split_ifs with h
  · conv_rhs => rw [← Int.toNat_of_nonneg h]
    rw [zpow_natCast]
    push_cast
    ring
  · have h2 : e = -((-e).toNat : ℤ) := by omega
    conv_rhs => rw [h2]
    rw [zpow_neg, zpow_natCast, one_div]
    push_cast
    ring

theorem rne_ge (x : ℚ) : x - 1 / 2 ≤ (rne x : ℚ) := by
  have hf : (⌊x⌋ : ℚ) ≤ x := Int.floor_le x
  have hc : x < ⌊x⌋ + 1 := Int.lt_floor_add_one x
  unfold rne
  rw [ratFloor_eq_floor]
  split_ifs with h1 h2 h3 <;> push_cast <;> linarith

theorem rne_le (x : ℚ) : (rne x : ℚ) ≤ x + 1 / 2 := by
  have hf : (⌊x⌋ : ℚ) ≤ x := Int.floor_le x
  have hc : x < ⌊x⌋ + 1 := Int.lt_floor_add_one x
  unfold rne
  rw [ratFloor_eq_floor]
  split_ifs with h1 h2 h3 <;> push_cast <;> linarith

theorem rne_intCast (k : ℤ) : rne (k : ℚ) = k := by
  unfold rne
  rw [ratFloor_eq_floor, Int.floor_intCast]
  simp

theorem rne_natCast (n : ℕ) : rne (n : ℚ) = n := by
  have := rne_intCast (n : ℤ)
  push_cast at this ⊢
  exact this

theorem rne_nonneg (x : ℚ) (hx : 0 ≤ x) : 0 ≤ rne x := by
  have h0 : 0 ≤ ⌊x⌋ := Int.floor_nonneg.mpr hx
  unfold rne
  rw [ratFloor_eq_floor]
  split_ifs <;> omega

theorem expOf_spec (q : ℚ) (hl : (2 : ℚ) ^ (-64 : ℤ) ≤ q) (hu : q < (2 : ℚ) ^ (64 : ℤ)) :
    (2 : ℚ) ^ (expOf q + 23) ≤ q ∧ q < (2 : ℚ) ^ (expOf q + 24) := by
  have two_ne : (2 : ℚ) ≠ 0 := by norm_num
  have hq0 : 0 < q := lt_of_lt_of_le (by positivity) hl
  have hnum : 0 < q.num := Rat.num_pos.mpr hq0
  have hden : (0 : ℚ) < (q.den : ℚ) := by
    exact_mod_cast q.den_pos
  set a : ℕ := q.num.toNat * 2 ^ 64 with ha
  set n : ℕ := a / q.den with hn
  -- `a` as a rational equals `q * 2^64 * q.den`
  have hq : (q.num : ℚ) = q * (q.den : ℚ) :=
    (div_eq_iff (ne_of_gt hden)).mp (Rat.num_div_den q)
  have h64 : (2 : ℚ) ^ (64 : ℤ) = ((2 ^ 64 : ℕ) : ℚ) := by
    rw [show ((64 : ℤ)) = ((64 : ℕ) : ℤ) by norm_num, zpow_natCast]
    push_cast
    ring
  have ht : ((q.num.toNat : ℕ) : ℚ) = (q.num : ℚ) := by
    rw [← Int.cast_natCast, Int.toNat_of_nonneg hnum.le]
  have hA : ((a : ℕ) : ℚ) = q * 2 ^ (64 : ℤ) * (q.den : ℚ) := by
    rw [ha, h64]
    push_cast
    rw [ht, hq]
    ring
  -- division bounds
  have hndle : (n : ℚ) * (q.den : ℚ) ≤ (a : ℚ) := by
    exact_mod_cast Nat.cast_le.mpr (Nat.div_mul_le_self a q.den)
  have hlt : (a : ℚ) < ((n : ℚ) + 1) * (q.den : ℚ) := by
    have h1 : a < (n + 1) * q.den := by
      have h2 := Nat.div_add_mod a q.den
      have h3 : a % q.den < q.den := Nat.mod_lt _ q.den_pos
      calc a = q.den * (a / q.den) + a % q.den := h2.symm
        _ < q.den * (a / q.den) + q.den := by omega
        _ = (a / q.den + 1) * q.den := by ring
    exact_mod_cast h1
  have hle64 : (n : ℚ) ≤ q * 2 ^ (64 : ℤ) := by
    have := hndle
    rw [hA] at this
    exact le_of_mul_le_mul_right this hden
  have hgt64 : q * 2 ^ (64 : ℤ) < (n : ℚ) + 1 := by
    have := hlt
    rw [hA] at this
    exact lt_of_mul_lt_mul_right this hden.le
  -- n is in the range where log2fuel is exact
  have hq64ge1 : (1 : ℚ) ≤ q * 2 ^ (64 : ℤ) := by
    have h := mul_le_mul_of_nonneg_right hl
      (by positivity : (0 : ℚ) ≤ (2 : ℚ) ^ (64 : ℤ))
    rwa [← zpow_add₀ two_ne, show (-64 : ℤ) + 64 = 0 by ring, zpow_zero] at h
  have hn1 : 0 < n := by
    rcases Nat.eq_zero_or_pos n with h0 | h0
    · exfalso
      rw [h0] at hgt64
      push_cast at hgt64
      linarith
    · exact h0
  have hn2 : n < 2 ^ 192 := by
    have hq2 : q * 2 ^ (64 : ℤ) < 2 ^ (128 : ℤ) := by
      have := mul_lt_mul_of_pos_right hu (by positivity : (0:ℚ) < 2 ^ (64 : ℤ))
      rwa [← zpow_add₀ two_ne] at this
    have : (n : ℚ) < 2 ^ (128 : ℤ) := lt_of_le_of_lt hle64 hq2
    have h128 : ((2 : ℚ) ^ (128 : ℤ)) = ((2 ^ 128 : ℕ) : ℚ) := by
      rw [show ((128 : ℤ)) = ((128 : ℕ) : ℤ) by norm_num, zpow_natCast]
      push_cast
      ring
    rw [h128] at this
    have : n < 2 ^ 128 := by exact_mod_cast this
    calc n < 2 ^ 128 := this
      _ ≤ 2 ^ 192 := Nat.pow_le_pow_right (by norm_num) (by norm_num)
  obtain ⟨hL, hR⟩ := log2fuel_spec 192 n hn1 hn2
  set t : ℕ := log2fuel 192 n with ht
  have hexp : expOf q = (t : ℤ) - 87 := by
    rw [expOf]
  -- 2^t ≤ q * 2^64  and  q * 2^64 < 2^(t+1)
  have hLq : ((2 : ℚ) ^ (t : ℤ)) ≤ q * 2 ^ (64 : ℤ) := by
    have h1 : ((2 ^ t : ℕ) : ℚ) ≤ (n : ℚ) := by exact_mod_cast hL
    have h2 : ((2 ^ t : ℕ) : ℚ) = (2 : ℚ) ^ (t : ℤ) := by
      rw [zpow_natCast]
      push_cast
      ring
    rw [h2] at h1
    exact h1.trans hle64
  have hRq : q * 2 ^ (64 : ℤ) < (2 : ℚ) ^ ((t : ℤ) + 1) := by
    have h0 : n + 1 ≤ 2 ^ (t + 1) := hR
    have h1 : (n : ℚ) + 1 ≤ ((2 ^ (t + 1) : ℕ) : ℚ) := by exact_mod_cast h0
    have h2 : ((2 ^ (t + 1) : ℕ) : ℚ) = (2 : ℚ) ^ ((t : ℤ) + 1) := by
      rw [show ((t : ℤ) + 1) = ((t + 1 : ℕ) : ℤ) by push_cast; ring, zpow_natCast]
      push_cast
      ring
    rw [h2] at h1
    exact lt_of_lt_of_le hgt64 h1
  have hp64 : (0 : ℚ) ≤ (2 : ℚ) ^ (-64 : ℤ) := by positivity
  constructor
  · have h1 := mul_le_mul_of_nonneg_right hLq hp64
    rw [mul_assoc, ← zpow_add₀ two_ne, ← zpow_add₀ two_ne] at h1
    rw [show (64 : ℤ) + -64 = 0 by ring, zpow_zero, mul_one] at h1
    rw [hexp]
    calc (2 : ℚ) ^ ((t : ℤ) - 87 + 23) = 2 ^ ((t : ℤ) + -64) := by congr 1; ring
      _ ≤ q := h1
  · have h1 := mul_lt_mul_of_pos_right hRq
      (by positivity : (0 : ℚ) < (2 : ℚ) ^ (-64 : ℤ))
    rw [mul_assoc, ← zpow_add₀ two_ne, ← zpow_add₀ two_ne] at h1
    rw [show (64 : ℤ) + -64 = 0 by ring, zpow_zero, mul_one] at h1
    rw [hexp]
    calc q < 2 ^ ((t : ℤ) + 1 + -64) := h1
      _ = (2 : ℚ) ^ ((t : ℤ) - 87 + 24) := by congr 1; ring

theorem rnd32_zero : rnd32 0 = 0 := by
  simp [rnd32]

theorem rnd32_nonneg (q : ℚ) : 0 ≤ rnd32 q := by
  unfold rnd32
  split_ifs with h
  · exact le_refl 0
  · have hq : 0 < q := lt_of_not_le h
    have hp : (0 : ℚ) < pow2 (expOf q) := by
      rw [pow2_eq_zpow]; positivity
    have hx : (0 : ℚ) ≤ q / pow2 (expOf q) := by positivity
    have h1 := rne_nonneg _ hx
    have h2 : (0 : ℚ) ≤ (rne (q / pow2 (expOf q)) : ℚ) := by exact_mod_cast h1
    exact mul_nonneg h2 hp.le

theorem rnd32_bounds (q : ℚ) (hl : (2 : ℚ) ^ (-64 : ℤ) ≤ q)
    (hu : q < (2 : ℚ) ^ (64 : ℤ)) :
    q - q / 2 ^ 24 ≤ rnd32 q ∧ rnd32 q ≤ q + q / 2 ^ 24 := by
  have two_ne : (2 : ℚ) ≠ 0 := by norm_num
  have hq0 : 0 < q := lt_of_lt_of_le (by positivity) hl
  obtain ⟨hL, hU⟩ := expOf_spec q hl hu
  unfold rnd32
  rw [if_neg (not_le.mpr hq0), pow2_eq_zpow]
  have hEpos : (0 : ℚ) < (2 : ℚ) ^ expOf q := by positivity
  have hm1 := mul_le_mul_of_nonneg_right (rne_ge (q / (2 : ℚ) ^ expOf q)) hEpos.le
  have hm2 := mul_le_mul_of_nonneg_right (rne_le (q / (2 : ℚ) ^ expOf q)) hEpos.le
  have hexp1 : (q / (2 : ℚ) ^ expOf q - 1 / 2) * (2 : ℚ) ^ expOf q
      = q - (2 : ℚ) ^ expOf q / 2 := by
    rw [sub_mul, div_mul_cancel₀ q hEpos.ne']
    ring
  have hexp2 : (q / (2 : ℚ) ^ expOf q + 1 / 2) * (2 : ℚ) ^ expOf q
      = q + (2 : ℚ) ^ expOf q / 2 := by
    rw [add_mul, div_mul_cancel₀ q hEpos.ne']
    ring
  have hEq : (2 : ℚ) ^ expOf q * 8388608 ≤ q := by
    have h1 : (2 : ℚ) ^ (expOf q + 23) = (2 : ℚ) ^ expOf q * (2 : ℚ) ^ (23 : ℤ) :=
      zpow_add₀ two_ne _ _
    have h2 : ((2 : ℚ) ^ (23 : ℤ)) = 8388608 := by norm_num
    rw [h1, h2] at hL
    exact hL
  rw [hexp1] at hm1
  rw [hexp2] at hm2
  constructor
  · have : q / 2 ^ 24 ≥ (2 : ℚ) ^ expOf q / 2 := by
      rw [ge_iff_le, div_le_div_iff₀ (by norm_num) (by norm_num)]
      norm_num
      linarith
    linarith
  · have : q / 2 ^ 24 ≥ (2 : ℚ) ^ expOf q / 2 := by
      rw [ge_iff_le, div_le_div_iff₀ (by norm_num) (by norm_num)]
      norm_num
      linarith
    linarith

theorem rnd32_exact_of (m : ℕ) (e : ℤ) (h0 : 0 < m) (hm : m < 2 ^ 24)
    (hel : -64 ≤ e) (heu : e ≤ 40) :
    rnd32 ((m : ℚ) * (2 : ℚ) ^ e) = (m : ℚ) * (2 : ℚ) ^ e := by
  have two_ne : (2 : ℚ) ≠ 0 := by norm_num
  have hm1 : (1 : ℚ) ≤ (m : ℚ) := by exact_mod_cast h0
  have hEpos : (0 : ℚ) < (2 : ℚ) ^ e := by positivity
  have hq0 : (0 : ℚ) < (m : ℚ) * (2 : ℚ) ^ e := by positivity
  have hm24 : (m : ℚ) < (2 : ℚ) ^ (24 : ℤ) := by
    have h1 : (m : ℚ) < ((2 ^ 24 : ℕ) : ℚ) := by exact_mod_cast hm
    have h2 : ((2 ^ 24 : ℕ) : ℚ) = (2 : ℚ) ^ (24 : ℤ) := by
      rw [show ((24 : ℤ)) = ((24 : ℕ) : ℤ) by norm_num, zpow_natCast]
      push_cast
      ring
    rwa [h2] at h1
  have hq24 : (m : ℚ) * (2 : ℚ) ^ e < (2 : ℚ) ^ (e + 24) := by
    calc (m : ℚ) * (2 : ℚ) ^ e < (2 : ℚ) ^ (24 : ℤ) * (2 : ℚ) ^ e :=
          mul_lt_mul_of_pos_right hm24 hEpos
      _ = (2 : ℚ) ^ (e + 24) := by rw [← zpow_add₀ two_ne]; congr 1; ring
  have hl : (2 : ℚ) ^ (-64 : ℤ) ≤ (m : ℚ) * (2 : ℚ) ^ e := by
    calc (2 : ℚ) ^ (-64 : ℤ) ≤ (2 : ℚ) ^ e := zpow_le_zpow_right₀ (by norm_num) hel
      _ = 1 * (2 : ℚ) ^ e := (one_mul _).symm
      _ ≤ (m : ℚ) * (2 : ℚ) ^ e := mul_le_mul_of_nonneg_right hm1 hEpos.le
  have hu : (m : ℚ) * (2 : ℚ) ^ e < (2 : ℚ) ^ (64 : ℤ) := by
    calc (m : ℚ) * (2 : ℚ) ^ e < (2 : ℚ) ^ (e + 24) := hq24
      _ ≤ (2 : ℚ) ^ (64 : ℤ) := zpow_le_zpow_right₀ (by norm_num) (by omega)
  obtain ⟨hL, hU⟩ := expOf_spec _ hl hu
  have hte : expOf ((m : ℚ) * (2 : ℚ) ^ e) ≤ e := by
    have h1 := lt_of_le_of_lt hL hq24
    have h2 := (zpow_lt_zpow_iff_right₀ (by norm_num : (1 : ℚ) < 2)).mp h1
    omega
  have hd : (0 : ℤ) ≤ e - expOf ((m : ℚ) * (2 : ℚ) ^ e) := by omega
  have hx : (m : ℚ) * (2 : ℚ) ^ e / (2 : ℚ) ^ expOf ((m : ℚ) * (2 : ℚ) ^ e)
      = ((m * 2 ^ (e - expOf ((m : ℚ) * (2 : ℚ) ^ e)).toNat : ℕ) : ℚ) := by
    rw [mul_div_assoc, ← zpow_sub₀ two_ne]
    push_cast
    congr 1
    rw [← zpow_natCast, Int.toNat_of_nonneg hd]
  unfold rnd32
  rw [if_neg (not_le.mpr hq0), pow2_eq_zpow, hx, rne_natCast]
  push_cast
  rw [mul_assoc]
  congr 1
  rw [← zpow_natCast ((2 : ℚ)), Int.toNat_of_nonneg hd, ← zpow_add₀ two_ne]
  congr 1
  ring

theorem rnd32_nat (n : ℕ) (h : n ≤ 2 ^ 24) : rnd32 (n : ℚ) = (n : ℚ) := by
  rcases Nat.eq_zero_or_pos n with h0 | h0
  · rw [h0]
    exact_mod_cast rnd32_zero
  · rcases Nat.lt_or_ge n (2 ^ 24) with hlt | hge
    · have := rnd32_exact_of n 0 h0 hlt (by norm_num) (by norm_num)
      rwa [zpow_zero, mul_one] at this
    · have hn : n = 2 ^ 24 := by omega
      subst hn
      have := rnd32_exact_of (2 ^ 23) 1 (by norm_num) (by norm_num)
        (by norm_num) (by norm_num)
      have he : ((2 ^ 23 : ℕ) : ℚ) * (2 : ℚ) ^ (1 : ℤ) = ((2 ^ 24 : ℕ) : ℚ) := by
        push_cast
        norm_num
      rwa [he] at this

theorem rnd32_repr (q : ℚ) (h1 : 1 ≤ q) (hu : q < (2 : ℚ) ^ (64 : ℤ)) :
    ∃ (m : ℕ) (e : ℤ), rnd32 q = (m : ℚ) * (2 : ℚ) ^ e ∧ 0 < m ∧ m ≤ 2 ^ 24 ∧
      -23 ≤ e ∧ e ≤ 40 := by
  have two_ne : (2 : ℚ) ≠ 0 := by norm_num
  have hq0 : (0 : ℚ) < q := lt_of_lt_of_le one_pos h1
  have hl : (2 : ℚ) ^ (-64 : ℤ) ≤ q := by
    have h2 : (2 : ℚ) ^ (-64 : ℤ) ≤ (2 : ℚ) ^ (0 : ℤ) :=
      zpow_le_zpow_right₀ (by norm_num) (by norm_num)
    rw [zpow_zero] at h2
    linarith
  obtain ⟨hL, hU⟩ := expOf_spec q hl hu
  have heu : expOf q ≤ 40 := by
    have h2 := lt_of_le_of_lt hL hu
    have h3 := (zpow_lt_zpow_iff_right₀ (by norm_num : (1 : ℚ) < 2)).mp h2
    omega
  have hel : -23 ≤ expOf q := by
    have h2 : (2 : ℚ) ^ (0 : ℤ) < (2 : ℚ) ^ (expOf q + 24) := by
      rw [zpow_zero]
      exact lt_of_le_of_lt h1 hU
    have h3 := (zpow_lt_zpow_iff_right₀ (by norm_num : (1 : ℚ) < 2)).mp h2
    omega
  have hEpos : (0 : ℚ) < (2 : ℚ) ^ expOf q := by positivity
  have hX1 : (2 : ℚ) ^ (23 : ℤ) ≤ q / (2 : ℚ) ^ expOf q := by
    rw [le_div_iff₀ hEpos, ← zpow_add₀ two_ne]
    calc (2 : ℚ) ^ (23 + expOf q) = (2 : ℚ) ^ (expOf q + 23) := by congr 1; ring
      _ ≤ q := hL
  have hX2 : q / (2 : ℚ) ^ expOf q < (2 : ℚ) ^ (24 : ℤ) := by
    rw [div_lt_iff₀ hEpos, ← zpow_add₀ two_ne]
    calc q < (2 : ℚ) ^ (expOf q + 24) := hU
      _ = (2 : ℚ) ^ (24 + expOf q) := by congr 1; ring
  have hr1 : ((2 ^ 23 : ℤ) : ℚ) ≤ (rne (q / (2 : ℚ) ^ expOf q) : ℚ) + 1 / 2 := by
    have := rne_ge (q / (2 : ℚ) ^ expOf q)
    have h23 : ((2 : ℚ) ^ (23 : ℤ)) = ((2 ^ 23 : ℤ) : ℚ) := by norm_num
    rw [h23] at hX1
    linarith
  have hr2 : (rne (q / (2 : ℚ) ^ expOf q) : ℚ) - 1 / 2 < ((2 ^ 24 : ℤ) : ℚ) := by
    have := rne_le (q / (2 : ℚ) ^ expOf q)
    have h24 : ((2 : ℚ) ^ (24 : ℤ)) = ((2 ^ 24 : ℤ) : ℚ) := by norm_num
    rw [h24] at hX2
    linarith
  have hi1 : (2 ^ 23 : ℤ) ≤ rne (q / (2 : ℚ) ^ expOf q) := by
    have h9 : ((2 ^ 23 - 1 : ℤ) : ℚ) < (rne (q / (2 : ℚ) ^ expOf q) : ℚ) := by
      push_cast at hr1 ⊢
      linarith
    have h10 := Int.cast_lt.mp h9
    linarith [Int.add_one_le_iff.mpr h10]
  have hi2 : rne (q / (2 : ℚ) ^ expOf q) ≤ 2 ^ 24 := by
    have h9 : (rne (q / (2 : ℚ) ^ expOf q) : ℚ) < ((2 ^ 24 : ℤ) : ℚ) + 1 := by
      push_cast at hr2 ⊢
      linarith
    have h10 : (rne (q / (2 : ℚ) ^ expOf q) : ℚ) < ((2 ^ 24 + 1 : ℤ) : ℚ) := by
      push_cast at h9 ⊢
      linarith
    exact Int.lt_add_one_iff.mp (Int.cast_lt.mp h10)
  have hnn : (0 : ℤ) ≤ rne (q / (2 : ℚ) ^ expOf q) := le_trans (by norm_num) hi1
  have hm0 : 0 < (rne (q / (2 : ℚ) ^ expOf q)).toNat := by
    have h11 : (0 : ℤ) < ((rne (q / (2 : ℚ) ^ expOf q)).toNat : ℤ) := by
      rw [Int.toNat_of_nonneg hnn]
      exact lt_of_lt_of_le (by norm_num) hi1
    exact_mod_cast h11
  have hm24 : (rne (q / (2 : ℚ) ^ expOf q)).toNat ≤ 2 ^ 24 := by
    have h11 : ((rne (q / (2 : ℚ) ^ expOf q)).toNat : ℤ) ≤ 2 ^ 24 := by
      rw [Int.toNat_of_nonneg hnn]
      exact hi2
    exact_mod_cast h11
  refine ⟨(rne (q / (2 : ℚ) ^ expOf q)).toNat, expOf q, ?_, hm0, hm24, hel, heu⟩
  unfold rnd32
  rw [if_neg (not_le.mpr hq0), pow2_eq_zpow]
  congr 1
  exact_mod_cast (Int.toNat_of_nonneg hnn).symm

theorem rnd32_div_floor (a g : ℕ) (h0 : 0 < a) (ha : a < 2 ^ 24)
    (hg0 : 0 < g) (hg : g ≤ 2 ^ 24) :
    (rnd32 ((a : ℚ) / (g : ℚ))).floor.toNat = a / g := by
  have hGpos : (0 : ℚ) < (g : ℚ) := by exact_mod_cast hg0
  rcases Nat.eq_zero_or_pos (a % g) with hr0 | hrpos
  · -- exact division: the quotient is an integer and representable
    have hdvd : g ∣ a := Nat.dvd_of_mod_eq_zero hr0
    have hk : g * (a / g) = a := Nat.mul_div_cancel' hdvd
    have hc : (a : ℚ) = (g : ℚ) * ((a / g : ℕ) : ℚ) := by exact_mod_cast hk.symm
    have hq : (a : ℚ) / (g : ℚ) = ((a / g : ℕ) : ℚ) := by
      rw [hc]
      field_simp
    rw [hq, rnd32_nat _ (le_trans (Nat.div_le_self a g) ha.le), ratFloor_eq_floor,
      Int.floor_natCast]
    exact Int.toNat_natCast _
  · -- the quotient is not an integer: rounding cannot reach the
    -- neighbouring integers because the relative error is below `1/g`
    have hg1 : (1 : ℚ) ≤ (g : ℚ) := by exact_mod_cast hg0
    have ha1 : (1 : ℚ) ≤ (a : ℚ) := by exact_mod_cast h0
    have hb := rnd32_bounds ((a : ℚ) / (g : ℚ))
      (by
        have h2 : (2 : ℚ) ^ (-64 : ℤ) ≤ (2 : ℚ) ^ (-24 : ℤ) :=
          zpow_le_zpow_right₀ (by norm_num) (by norm_num)
        have h3 : ((2 : ℚ) ^ (-24 : ℤ)) = 1 / 16777216 := by norm_num
        have hga : (g : ℚ) ≤ 16777216 := by exact_mod_cast hg
        have h4 : 1 / 16777216 ≤ (a : ℚ) / (g : ℚ) := by
          rw [div_le_div_iff₀ (by norm_num) hGpos]
          nlinarith
        linarith [h2.trans (h3.le.trans h4)])
      (by
        have h5 : (a : ℚ) / (g : ℚ) ≤ (a : ℚ) := div_le_self (by linarith) hg1
        have h6 : ((2 : ℚ) ^ (64 : ℤ)) = 18446744073709551616 := by norm_num
        have h7 : (a : ℚ) < 16777216 := by exact_mod_cast ha
        linarith)
    have hmod := Nat.div_add_mod a g
    have hQ : (a : ℚ) = (g : ℚ) * ((a / g : ℕ) : ℚ) + ((a % g : ℕ) : ℚ) := by
      exact_mod_cast hmod.symm
    have hR1 : (1 : ℚ) ≤ ((a % g : ℕ) : ℚ) := by exact_mod_cast hrpos
    have hR2 : ((a % g : ℕ) : ℚ) ≤ (g : ℚ) - 1 := by
      have : a % g + 1 ≤ g := Nat.mod_lt _ hg0
      have h8 : ((a % g + 1 : ℕ) : ℚ) ≤ (g : ℚ) := by exact_mod_cast this
      push_cast at h8
      linarith
    have hA24 : (a : ℚ) < 16777216 := by exact_mod_cast ha
    have hKG : ((a / g : ℕ) : ℚ) * (g : ℚ) = (a : ℚ) - ((a % g : ℕ) : ℚ) := by
      linarith
    have hlow : ((a / g : ℕ) : ℚ) < rnd32 ((a : ℚ) / (g : ℚ)) := by
      have hsplit : (a : ℚ) / (g : ℚ) - ((a : ℚ) / (g : ℚ)) / 2 ^ 24
          = ((a : ℚ) * 16777216 - (a : ℚ)) / ((g : ℚ) * 16777216) := by
        field_simp
        ring
      have hgoal : ((a / g : ℕ) : ℚ)
          < ((a : ℚ) * 16777216 - (a : ℚ)) / ((g : ℚ) * 16777216) := by
        rw [lt_div_iff₀ (by positivity)]
        have he : ((a / g : ℕ) : ℚ) * ((g : ℚ) * 16777216)
            = ((a : ℚ) - ((a % g : ℕ) : ℚ)) * 16777216 := by
          rw [← hKG]; ring
        rw [he]
        nlinarith
      calc ((a / g : ℕ) : ℚ)
          < ((a : ℚ) * 16777216 - (a : ℚ)) / ((g : ℚ) * 16777216) := hgoal
        _ = (a : ℚ) / (g : ℚ) - ((a : ℚ) / (g : ℚ)) / 2 ^ 24 := hsplit.symm
        _ ≤ rnd32 ((a : ℚ) / (g : ℚ)) := hb.1
    have hhigh : rnd32 ((a : ℚ) / (g : ℚ)) < ((a / g : ℕ) : ℚ) + 1 := by
      have hsplit : (a : ℚ) / (g : ℚ) + ((a : ℚ) / (g : ℚ)) / 2 ^ 24
          = ((a : ℚ) * 16777216 + (a : ℚ)) / ((g : ℚ) * 16777216) := by
        field_simp
        ring
      have hgoal : ((a : ℚ) * 16777216 + (a : ℚ)) / ((g : ℚ) * 16777216)
          < ((a / g : ℕ) : ℚ) + 1 := by
        rw [div_lt_iff₀ (by positivity)]
        have he : (((a / g : ℕ) : ℚ) + 1) * ((g : ℚ) * 16777216)
            = ((a : ℚ) - ((a % g : ℕ) : ℚ) + (g : ℚ)) * 16777216 := by
          rw [show (((a / g : ℕ) : ℚ) + 1) * ((g : ℚ) * 16777216)
              = (((a / g : ℕ) : ℚ) * (g : ℚ) + (g : ℚ)) * 16777216 by ring, hKG]
        rw [he]
        nlinarith
      calc rnd32 ((a : ℚ) / (g : ℚ))
          ≤ (a : ℚ) / (g : ℚ) + ((a : ℚ) / (g : ℚ)) / 2 ^ 24 := hb.2
        _ = ((a : ℚ) * 16777216 + (a : ℚ)) / ((g : ℚ) * 16777216) := hsplit
        _ < ((a / g : ℕ) : ℚ) + 1 := hgoal
    have hfl : (rnd32 ((a : ℚ) / (g : ℚ))).floor = ((a / g : ℕ) : ℤ) := by
      rw [ratFloor_eq_floor]
      rw [Int.floor_eq_iff]
      constructor
      · rw [Int.cast_natCast]
        linarith
      · rw [Int.cast_natCast]
        linarith
    rw [hfl]
    exact Int.toNat_natCast _

theorem rnd32_div256 (n : ℕ) (h0 : 0 < n) (hn : n < 2 ^ 24) :
    rnd32 ((n : ℚ) / 256) = (n : ℚ) / 256 := by
  have he : (n : ℚ) / 256 = (n : ℚ) * (2 : ℚ) ^ (-8 : ℤ) := by
    have h8 : ((2 : ℚ) ^ (-8 : ℤ)) = 1 / 256 := by norm_num
    rw [h8]
    ring
  rw [he]
  exact rnd32_exact_of n (-8) h0 hn (by norm_num) (by norm_num)

theorem charIdx_exact (s N : ℕ) (hs : s < 256) (hN1 : 1 ≤ N) (hN : N ≤ 65793) :
    charIdx s N = s * N / 256 := by
  have hN24 : N ≤ 2 ^ 24 := by omega
  have hlum : lumToChar N = (N : ℚ) / 256 := by
    unfold lumToChar
    rw [rnd32_nat N hN24]
    exact rnd32_div256 N (by omega) (by omega)
  rcases Nat.eq_zero_or_pos s with h0 | h0
  · subst h0
    unfold charIdx
    rw [hlum]
    norm_num [rnd32_zero, ratFloor_eq_floor]
  · have hsN : s * N < 2 ^ 24 := by
      calc s * N ≤ 255 * 65793 := Nat.mul_le_mul (by omega) hN
        _ < 2 ^ 24 := by norm_num
    have hprod : (s : ℚ) * ((N : ℚ) / 256) = ((s * N : ℕ) : ℚ) / 256 := by
      push_cast
      ring
    unfold charIdx
    rw [hlum, hprod, rnd32_div256 (s * N) (by positivity) hsN]
    rw [ratFloor_eq_floor, Int.floor_toNat]
    rw [show ((256 : ℚ)) = ((256 : ℕ) : ℚ) by norm_num]
    rw [Nat.floor_div_nat, Nat.floor_natCast]

theorem charIdx_lt (v N : ℕ) (hv : v < 256) (hN : 0 < N) (hN' : N < 2 ^ 63) :
    charIdx v N < N := by
  rcases Nat.eq_zero_or_pos v with h0 | h0
  · subst h0
    unfold charIdx
    norm_num [rnd32_zero, ratFloor_eq_floor]
    exact hN
  · -- general case via the relative rounding error
    have two_ne : (2 : ℚ) ≠ 0 := by norm_num
    have hN1 : (1 : ℚ) ≤ (N : ℚ) := by exact_mod_cast hN
    have hNq : (N : ℚ) < (2 : ℚ) ^ (64 : ℤ) := by
      have h1 : (N : ℚ) < ((2 ^ 63 : ℕ) : ℚ) := by exact_mod_cast hN'
      have h2 : ((2 ^ 63 : ℕ) : ℚ) ≤ (2 : ℚ) ^ (64 : ℤ) := by norm_num
      linarith
    have hNl : (2 : ℚ) ^ (-64 : ℤ) ≤ (N : ℚ) := by
      have h2 : ((2 : ℚ) ^ (-64 : ℤ)) ≤ 1 := by norm_num
      linarith
    -- A := rnd32 N
    obtain ⟨hA1, hA2⟩ := rnd32_bounds (N : ℚ) hNl hNq
    have hApos : 0 < rnd32 (N : ℚ) := by
      have : (N : ℚ) / 2 ^ 24 < (N : ℚ) := by
        have : (0 : ℚ) < (N : ℚ) := by linarith
        nlinarith
      linarith
    -- B := rnd32 (A / 256) equals A / 256 because A is representable
    obtain ⟨m, e, hrep, hm0, hm24, hel, heu⟩ := rnd32_repr (N : ℚ)
      (by exact_mod_cast hN) hNq
    have hB : rnd32 (rnd32 (N : ℚ) / 256) = rnd32 (N : ℚ) / 256 := by
      have hdiv : rnd32 (N : ℚ) / 256 = (m : ℚ) * (2 : ℚ) ^ (e - 8) := by
        rw [hrep, zpow_sub₀ two_ne]
        have h8 : ((2 : ℚ) ^ (8 : ℤ)) = 256 := by norm_num
        rw [h8]
        ring
      rcases Nat.lt_or_ge m (2 ^ 24) with hmlt | hmge
      · rw [hdiv]
        exact rnd32_exact_of m (e - 8) hm0 hmlt (by omega) (by omega)
      · have hmeq : m = 2 ^ 24 := by omega
        subst hmeq
        have hdiv2 : ((2 ^ 24 : ℕ) : ℚ) * (2 : ℚ) ^ (e - 8)
            = ((2 ^ 23 : ℕ) : ℚ) * (2 : ℚ) ^ (e - 7) := by
          push_cast
          rw [show (e - 7 : ℤ) = (e - 8) + 1 by ring, zpow_add₀ two_ne]
          norm_num
          ring
        rw [hdiv, hdiv2]
        exact rnd32_exact_of (2 ^ 23) (e - 7) (by norm_num) (by norm_num)
          (by omega) (by omega)
    -- C := rnd32 (v * B)
    have hvq : (v : ℚ) ≤ 255 := by exact_mod_cast Nat.lt_succ_iff.mp hv
    have hv1 : (1 : ℚ) ≤ (v : ℚ) := by exact_mod_cast h0
    have hBpos : 0 < rnd32 (N : ℚ) / 256 := by positivity
    have hBub : rnd32 (N : ℚ) / 256 ≤ ((N : ℚ) + (N : ℚ) / 2 ^ 24) / 256 := by
      have := hA2
      linarith
    have hvB_ub : (v : ℚ) * (rnd32 (N : ℚ) / 256)
        ≤ 255 * (((N : ℚ) + (N : ℚ) / 2 ^ 24) / 256) := by
      have h1 : (v : ℚ) * (rnd32 (N : ℚ) / 256) ≤ 255 * (rnd32 (N : ℚ) / 256) :=
        mul_le_mul_of_nonneg_right hvq hBpos.le
      have h2 : 255 * (rnd32 (N : ℚ) / 256) ≤ 255 * (((N : ℚ) + (N : ℚ) / 2 ^ 24) / 256) := by
        linarith
      linarith
    have hBlb : (1 - 1 / 2 ^ 24) / 256 ≤ rnd32 (N : ℚ) / 256 := by
      have h2 : (1 : ℚ) - 1 / 2 ^ 24 ≤ (N : ℚ) - (N : ℚ) / 2 ^ 24 := by
        linarith
      linarith
    have hvB_lb : (2 : ℚ) ^ (-64 : ℤ) ≤ (v : ℚ) * (rnd32 (N : ℚ) / 256) := by
      have h4 : 1 * (rnd32 (N : ℚ) / 256) ≤ (v : ℚ) * (rnd32 (N : ℚ) / 256) :=
        mul_le_mul_of_nonneg_right hv1 hBpos.le
      have h5 : ((2 : ℚ) ^ (-64 : ℤ)) ≤ (1 - 1 / 2 ^ 24) / 256 := by norm_num
      linarith
    have h6 : 255 * (((N : ℚ) + (N : ℚ) / 2 ^ 24) / 256)
        + 255 * (((N : ℚ) + (N : ℚ) / 2 ^ 24) / 256) / 2 ^ 24 < (N : ℚ) := by
      linarith
    have h6' : 255 * (((N : ℚ) + (N : ℚ) / 2 ^ 24) / 256) < (N : ℚ) := by
      linarith
    have hvB_ub64 : (v : ℚ) * (rnd32 (N : ℚ) / 256) < (2 : ℚ) ^ (64 : ℤ) := by
      have h8 : ((2 : ℚ) ^ (64 : ℤ)) = 18446744073709551616 := by norm_num
      rw [h8]
      linarith
    obtain ⟨hC1, hC2⟩ := rnd32_bounds ((v : ℚ) * (rnd32 (N : ℚ) / 256)) hvB_lb hvB_ub64
    have h10 : (v : ℚ) * (rnd32 (N : ℚ) / 256) / 2 ^ 24
        ≤ 255 * (((N : ℚ) + (N : ℚ) / 2 ^ 24) / 256) / 2 ^ 24 := by
      linarith
    have hCN : rnd32 ((v : ℚ) * (rnd32 (N : ℚ) / 256)) < (N : ℚ) := by
      linarith
    unfold charIdx
    rw [show lumToChar N = rnd32 (N : ℚ) / 256 from hB]
    have hfl : (rnd32 ((v : ℚ) * (rnd32 (N : ℚ) / 256))).floor < (N : ℤ) := by
      rw [ratFloor_eq_floor]
      exact Int.floor_lt.mpr (by exact_mod_cast hCN)
    rw [ratFloor_eq_floor] at hfl ⊢
    exact (Int.toNat_lt' (by omega)).mpr hfl

theorem scanCoord_zero (dim g : ℕ) : scanCoord 0 dim g = 0 := by
  unfold scanCoord
  rw [Nat.cast_zero, rnd32_zero, zero_mul, rnd32_zero, zero_div, rnd32_zero,
    ratFloor_eq_floor]
  simp

theorem scanCoord_exact (i dim g : ℕ) (hg0 : 0 < g) (hg : g ≤ 2 ^ 24)
    (hi : i < g) (ha : i * dim < 2 ^ 24) :
    scanCoord i dim g = i * dim / g := by
  rcases Nat.eq_zero_or_pos i with h0 | h0
  · subst h0
    rw [scanCoord_zero]
    simp
  · rcases Nat.eq_zero_or_pos dim with hd0 | hd0
    · subst hd0
      unfold scanCoord
      rw [Nat.cast_zero, rnd32_zero, mul_zero, rnd32_zero, zero_div, rnd32_zero,
        ratFloor_eq_floor]
      simp
    · have hi24 : i ≤ 2 ^ 24 := by omega
      have hdim24 : dim ≤ 2 ^ 24 := by
        have : dim ≤ i * dim := Nat.le_mul_of_pos_left dim h0
        omega
      unfold scanCoord
      rw [rnd32_nat i hi24, rnd32_nat dim hdim24, rnd32_nat g hg]
      rw [show (i : ℚ) * (dim : ℚ) = ((i * dim : ℕ) : ℚ) by push_cast; ring]
      rw [rnd32_nat (i * dim) (by omega)]
      exact rnd32_div_floor (i * dim) g (by positivity) ha hg0 hg

theorem scan_bound (g H cw c : ℕ) (hc : c < g) (hcw : cw * g ≤ H) :
    c * H / g + cw ≤ H := by
  have hg0 : 0 < g := by omega
  have hcwH : cw ≤ H := by
    have h := Nat.le_mul_of_pos_right cw hg0
    omega
  have h1 : c * H ≤ (g - 1) * H := Nat.mul_le_mul_right H (by omega)
  have e1 : (g - 1) * H = g * H - H := by rw [Nat.sub_mul, one_mul]
  have e2 : (H - cw) * g = H * g - cw * g := Nat.sub_mul H cw g
  have e3 : g * H = H * g := Nat.mul_comm g H
  have h2 : c * H ≤ (H - cw) * g := by omega
  have h3 : c * H / g ≤ (H - cw) * g / g := Nat.div_le_div_right h2
  rw [Nat.mul_div_cancel _ hg0] at h3
  omega

theorem mem_of_getElem_some {α : Type} {l : List α} {i : ℕ} {a : α}
    (h : l[i]? = some a) : a ∈ l := by
  obtain ⟨hlt, he⟩ := List.getElem?_eq_some.mp h
  exact he ▸ List.getElem_mem hlt

theorem copyInto_some (buf : List ℕ) (start : ℕ) (line : List ℕ)
    (h : start + line.length ≤ buf.length) :
    ∃ b, copyInto buf start line = some b ∧ b.length = buf.length := by
  refine ⟨_, by rw [copyInto, if_pos h], ?_⟩
  simp only [List.length_append, List.length_take, List.length_drop]
  omega

theorem stampLines_some (stride : ℕ) :
    ∀ (lines : List (List ℕ)) (buf : List ℕ) (start : ℕ),
    (∀ k l, lines[k]? = some l → start + k * stride + l.length ≤ buf.length) →
    ∃ b, stampLines stride lines buf start = some b ∧ b.length = buf.length := by
  intro lines
  induction lines with
  | nil => exact fun buf start _ => ⟨buf, rfl, rfl⟩
  | cons l ls ih =>
    intro buf start h
    have h0 : start + l.length ≤ buf.length := by
      have := h 0 l (by simp)
      omega
    obtain ⟨b, hb, hblen⟩ := copyInto_some buf start l h0
    have hrec : ∀ k l', ls[k]? = some l' →
        (start + stride) + k * stride + l'.length ≤ b.length := by
      intro k l' hk
      have := h (k + 1) l' (by simpa using hk)
      have e : (k + 1) * stride = k * stride + stride := Nat.succ_mul k stride
      omega
    obtain ⟨b', hb', hb'len⟩ := ih b (start + stride) hrec
    refine ⟨b', ?_, by omega⟩
    simp only [stampLines, hb]
    exact hb'

theorem stampCell_some (buf : List ℕ) (stamp : List (List ℕ))
    (x yc cellW cellH outH strideO : ℕ)
    (hlen : stamp.length ≤ cellH) (hrow : ∀ l ∈ stamp, l.length ≤ cellW)
    (hx : x + cellW ≤ strideO) (hy : yc + cellH ≤ outH)
    (hbuf : strideO * outH ≤ buf.length) :
    ∃ b, stampLines strideO stamp buf (x + yc * strideO) = some b ∧
      b.length = buf.length := by
  apply stampLines_some
  intro k l hk
  have hklt : k < stamp.length := (List.getElem?_eq_some.mp hk).1
  have hlmem : l ∈ stamp := mem_of_getElem_some hk
  have hlw : l.length ≤ cellW := hrow l hlmem
  have hk1 : k + 1 ≤ cellH := by omega
  have hmul : (yc + k + 1) * strideO ≤ outH * strideO :=
    Nat.mul_le_mul_right strideO (by omega)
  have e1 : (yc + k + 1) * strideO = yc * strideO + k * strideO + strideO := by ring
  have e2 : outH * strideO = strideO * outH := Nat.mul_comm _ _
  omega

theorem compositeCols_some (lum : List ℕ) (cs : List (List (List ℕ)))
    (strideO yc cellW cellH outH B : ℕ)
    (hcs : ∀ gl ∈ cs, gl.length ≤ cellH ∧ ∀ l ∈ gl, l.length ≤ cellW)
    (hN : 0 < cs.length) (hN' : cs.length < 2 ^ 63)
    (hv : ∀ v ∈ lum, v < 256)
    (hy : yc + cellH ≤ outH)
    (hbufB : strideO * outH ≤ B) :
    ∀ (xs : List ℕ) (buf : List ℕ) (i : ℕ), buf.length = B →
    i + xs.length ≤ lum.length →
    (∀ x ∈ xs, x + cellW ≤ strideO) →
    ∃ b, compositeCols lum cs strideO yc xs buf i = some (b, i + xs.length) ∧
      b.length = B := by
  intro xs
  induction xs with
  | nil => exact fun buf i hb _ _ => ⟨buf, rfl, hb⟩
  | cons x xs ih =>
    intro buf i hb hread hxs
    have hi : i < lum.length := by
      simp only [List.length_cons] at hread
      omega
    have hlumi : lum[i]? = some lum[i] := List.getElem?_eq_getElem hi
    have hv256 : lum[i] < 256 := hv _ (List.getElem_mem hi)
    have hidx : charIdx lum[i] cs.length < cs.length := charIdx_lt _ _ hv256 hN hN'
    have hcsi : cs[charIdx lum[i] cs.length]? = some cs[charIdx lum[i] cs.length] :=
      List.getElem?_eq_getElem hidx
    obtain ⟨hstlen, hstrow⟩ := hcs _ (List.getElem_mem hidx)
    obtain ⟨b, hstamp, hblen⟩ := stampCell_some buf _ x yc cellW cellH outH strideO
      hstlen hstrow (hxs x (by simp)) hy (by omega)
    have hread' : (i + 1) + xs.length ≤ lum.length := by
      simp only [List.length_cons] at hread
      omega
    obtain ⟨b', hb', hb'len⟩ := ih b (i + 1) (by omega) hread'
      (fun x' hx' => hxs x' (by simp [hx']))
    refine ⟨b', ?_, hb'len⟩
    simp only [compositeCols, hlumi, hcsi, hstamp]
    rw [hb']
    congr 2
    simp only [List.length_cons]
    omega

theorem compositeRows_some (lum : List ℕ) (cs : List (List (List ℕ)))
    (strideO strideS cellW cellH outH B : ℕ)
    (hcs : ∀ gl ∈ cs, gl.length ≤ cellH ∧ ∀ l ∈ gl, l.length ≤ cellW)
    (hN : 0 < cs.length) (hN' : cs.length < 2 ^ 63)
    (hv : ∀ v ∈ lum, v < 256)
    (hbufB : strideO * outH ≤ B) :
    ∀ (xs : List ℕ), xs.length ≤ strideS →
    (∀ x ∈ xs, x + cellW ≤ strideO) →
    ∀ (ys : List ℕ) (buf : List ℕ) (i : ℕ), buf.length = B →
    i + ys.length * strideS ≤ lum.length →
    (∀ yc ∈ ys, yc + cellH ≤ outH) →
    ∃ b, compositeRows lum cs strideO (strideS - xs.length) xs ys buf i = some b ∧
      b.length = B := by
  intro xs hxslen hxs ys
  induction ys with
  | nil => exact fun buf i hb _ _ => ⟨buf, rfl, hb⟩
  | cons yc ys ih =>
    intro buf i hb hread hys
    have hreadrow : i + xs.length ≤ lum.length := by
      simp only [List.length_cons] at hread
      have e : (ys.length + 1) * strideS = ys.length * strideS + strideS :=
        Nat.succ_mul _ _
      omega
    obtain ⟨b, hcols, hblen⟩ := compositeCols_some lum cs strideO yc cellW cellH outH B
      hcs hN hN' hv (hys yc (by simp)) hbufB xs buf i hb hreadrow hxs
    have hread' : (i + xs.length + (strideS - xs.length)) + ys.length * strideS
        ≤ lum.length := by
      simp only [List.length_cons] at hread
      have e : (ys.length + 1) * strideS = ys.length * strideS + strideS :=
        Nat.succ_mul _ _
      omega
    obtain ⟨b', hb', hb'len⟩ := ih b (i + xs.length + (strideS - xs.length)) hblen
      hread' (fun yc' hyc' => hys yc' (by simp [hyc']))
    refine ⟨b', ?_, hb'len⟩
    simp only [compositeRows, hcols]
    exact hb'

theorem composite_some (lum : List ℕ) (cs : List (List (List ℕ))) (buf : List ℕ)
    (cellW cellH gridW gridH outW outH strideO strideS : ℕ)
    (hcw : 0 < cellW) (hgw : gridW = outW / cellW) (hch : cellH ≤ outH / gridH)
    (hcs : ∀ gl ∈ cs, gl.length ≤ cellH ∧ ∀ l ∈ gl, l.length ≤ cellW)
    (hN : 0 < cs.length) (hN' : cs.length < 2 ^ 63)
    (hv : ∀ v ∈ lum, v < 256)
    (hlum : strideS * gridH ≤ lum.length)
    (hpads : gridW ≤ strideS)
    (hso : outW ≤ strideO)
    (hbuf : strideO * outH ≤ buf.length) :
    (composite lum cs ((List.range gridW).map fun c => c * outW / gridW)
      ((List.range gridH).map fun r => r * outH / gridH) strideO strideS buf).isSome
      = true := by
  have hxslen : ((List.range gridW).map fun c => c * outW / gridW).length = gridW := by
    simp
  have hcwg : cellW * gridW ≤ outW := by
    rw [hgw, Nat.mul_comm]
    exact Nat.div_mul_le_self outW cellW
  have hchg : cellH * gridH ≤ outH := by
    calc cellH * gridH ≤ (outH / gridH) * gridH := Nat.mul_le_mul_right gridH hch
      _ ≤ outH := Nat.div_mul_le_self outH gridH
  obtain ⟨b, hb, _⟩ := compositeRows_some lum cs strideO strideS cellW cellH outH
    buf.length hcs hN hN' hv hbuf
    ((List.range gridW).map fun c => c * outW / gridW)
    (by rw [hxslen]; exact hpads)
    (by
      intro x hx
      obtain ⟨c, hc, rfl⟩ := List.mem_map.mp hx
      have hclt : c < gridW := List.mem_range.mp hc
      have := scan_bound gridW outW cellW c hclt hcwg
      omega)
    ((List.range gridH).map fun r => r * outH / gridH) buf 0 rfl
    (by simp only [List.length_map, List.length_range, zero_add]; rw [Nat.mul_comm]; exact hlum)
    (by
      intro yc hyc
      obtain ⟨r, hr, rfl⟩ := List.mem_map.mp hyc
      have hrlt : r < gridH := List.mem_range.mp hr
      exact scan_bound gridH outH cellH r hrlt hchg)
  rw [hxslen] at hb
  unfold composite
  rw [hxslen, hb]
  rfl

theorem fitLoop_le (m : Option ℚ → ℕ × ℕ) (fontH : ℕ) :
    ∀ (fuel : ℕ) (adj : Option ℚ) (w h : ℕ) (sz : Option ℚ) (w' h' : ℕ),
    fitLoop m fontH fuel adj w h = some (sz, w', h') → h' ≤ fontH := by
  intro fuel
  induction fuel with
  | zero => intro adj w h sz w' h' hcontra; simp [fitLoop] at hcontra
  | succ fuel ih =>
    intro adj w h sz w' h' heq
    by_cases hle : h ≤ fontH
    · simp only [fitLoop, if_pos hle, Option.some.injEq] at heq
      obtain ⟨-, -, h3⟩ := heq
      omega
    · simp only [fitLoop, if_neg hle] at heq
      exact ih _ _ _ _ _ _ heq

theorem fitLoop_stuck (fontH p : ℕ) :
    ∀ (fuel : ℕ) (adj : Option ℚ) (w : ℕ),
    fitLoop (fun _ => (p, fontH + 1)) fontH fuel adj w (fontH + 1) = none := by
  intro fuel
  induction fuel with
  | zero => intro adj w; rfl
  | succ fuel ih =>
    intro adj w
    simp only [fitLoop, if_neg (by omega : ¬ fontH + 1 ≤ fontH)]
    exact ih _ _

theorem sizing_stuck (fontH p fuel : ℕ) :
    sizing (fun _ => (p, fontH + 1)) fontH fuel = none := by
  unfold sizing
  exact fitLoop_stuck fontH p fuel _ _

theorem sizingInit_zero (m : Option ℚ → ℕ × ℕ) (fontH : ℕ)
    (h : (m (some (rnd32 (fontH : ℚ)))).2 = 0) :
    sizingInit m fontH = (none, (m none).1, (m none).2) := by
  unfold sizingInit
  rw [h]
  simp

theorem glyphFold_inv (w h : ℕ) :
    ∀ (writes : List (ℕ × ℕ × Bool)) (bmp : List (List ℕ)),
    bmp.length = h → (∀ r ∈ bmp, r.length = w) →
    (writes.foldl (fun bmp p =>
        if p.1 < w ∧ p.2.1 < h then
          bmp.set p.2.1 ((bmp.getD p.2.1 []).set p.1 (if p.2.2 then 255 else 0))
        else bmp) bmp).length = h ∧
      ∀ r ∈ writes.foldl (fun bmp p =>
        if p.1 < w ∧ p.2.1 < h then
          bmp.set p.2.1 ((bmp.getD p.2.1 []).set p.1 (if p.2.2 then 255 else 0))
        else bmp) bmp, r.length = w := by
  intro writes
  induction writes with
  | nil => intro bmp h1 h2; exact ⟨h1, h2⟩
  | cons p ps ih =>
    intro bmp h1 h2
    simp only [List.foldl_cons]
    by_cases hp : p.1 < w ∧ p.2.1 < h
    · rw [if_pos hp]
      apply ih
      · rw [List.length_set]; exact h1
      · intro r hr
        rcases List.mem_or_eq_of_mem_set hr with hmem | heq
        · exact h2 r hmem
        · subst heq
          rw [List.length_set]
          have hy : p.2.1 < bmp.length := by omega
          rw [List.getD_eq_getElem?_getD, List.getElem?_eq_getElem hy]
          exact h2 _ (List.getElem_mem hy)
    · rw [if_neg hp]
      exact ih bmp h1 h2

theorem renderAtlas_dims (w h : ℕ) (gws : List (Option (List (ℕ × ℕ × Bool)))) :
    ∀ bmp ∈ renderAtlas w h gws, bmp.length = h ∧ ∀ r ∈ bmp, r.length = w := by
  intro bmp hbmp
  obtain ⟨og, hog, rfl⟩ := List.mem_map.mp hbmp
  cases og with
  | none =>
    constructor
    · simp
    · intro r hr
      rw [List.eq_of_mem_replicate hr]
      simp
  | some ws =>
    exact glyphFold_inv w h ws _ (by simp)
      (fun r hr => by rw [List.eq_of_mem_replicate hr]; simp)

theorem decodeFramesEnd_spec (comp : ℕ → ℕ) :
    ∀ (d e : List ℕ), decodeFramesEnd comp d e =
      (e ++ d.map comp, d.map fun f => PEv.sendFrame (comp f)) := by
  intro d
  induction d with
  | nil => intro e; simp [decodeFramesEnd]
  | cons f fs ih =>
    intro e
    simp only [decodeFramesEnd, ih, List.map_cons]
    simp

theorem encodeFramesEnd_spec : ∀ l : List ℕ, encodeFramesEnd l = l.map PEv.writePkt := by
  intro l
  induction l with
  | nil => rfl
  | cons p ps ih => simp only [encodeFramesEnd, ih, List.map_cons]

theorem processAll_chroma (cs : List (List (List ℕ))) (xs ys : List ℕ)
    (stride strideS : ℕ) :
    ∀ (lums : List (List ℕ)) (f f' : OutFrame),
    processAll cs xs ys stride strideS lums f = some f' →
    f'.cb = f.cb ∧ f'.cr = f.cr := by
  intro lums
  induction lums with
  | nil =>
    intro f f' h
    simp only [processAll, Option.some.injEq] at h
    subst h
    exact ⟨rfl, rfl⟩
  | cons l ls ih =>
    intro f f' h
    simp only [processAll] at h
    rcases hd : decodeOne cs xs ys stride strideS f l with - | f1
    · rw [hd] at h
      simp at h
    · rw [hd] at h
      have hstep : f1.cb = f.cb ∧ f1.cr = f.cr := by
        unfold decodeOne at hd
        rcases hc : composite l cs xs ys stride strideS f.y with - | y'
        · rw [hc] at hd
          exact Option.noConfusion hd
        · rw [hc] at hd
          simp only [Option.map_some', Option.some.injEq] at hd
          subst hd
          exact ⟨rfl, rfl⟩
      obtain ⟨h1, h2⟩ := ih f1 f' h
      exact ⟨h1.trans hstep.1, h2.trans hstep.2⟩

theorem scanCoordList_entry (g W i a : ℕ) (hg24 : g ≤ 2 ^ 24)
    (hb : (g - 1) * W < 2 ^ 24)
    (h : ((List.range g).map fun c => scanCoord c W g)[i]? = some a) :
    i < g ∧ a = i * W / g := by
  simp only [List.getElem?_map] at h
  by_cases hi : i < g
  · rw [List.getElem?_range hi] at h
    simp only [Option.map_some', Option.some.injEq] at h
    have hiW : i * W < 2 ^ 24 := by
      have h1 : i * W ≤ (g - 1) * W := Nat.mul_le_mul_right W (by omega)
      omega
    rw [scanCoord_exact i W g (by omega) hg24 hi hiW] at h
    exact ⟨hi, h.symm⟩
  · rw [List.getElem?_eq_none (by simp only [List.length_range]; omega)] at h
    exact absurd h (by simp)

/-- Claim C1 (corrected).  The floating-point glyph-index computation
`(s as f32 * (N as f32 / 256.0)) as usize` does not equal
`floor(s * N / 256)` for every atlas size `N`: with `N = 66049` glyphs and
sample `s = 255` the code selects index 65791 while the integer floor
formula gives 65790. -/
theorem claim1_counterexample :
    charIdx 255 66049 = 65791 ∧ 255 * 66049 / 256 = 65790 := by
  constructor
  · with_unfolding_all decide
  · with_unfolding_all decide

/-- Claim C1 (amended).  For every luminance sample `s < 256` and every
non-empty glyph atlas of `N` glyphs (`N` below the usize range modelled,
`N < 2^63`), the selected index is within `[0, N-1]`; and whenever
`N ≤ 65793` (so that `s * N < 2^24`, covering every practical atlas) the
floating-point computation agrees exactly with `floor(s * N / 256)` — in
particular with `N = 4`: sample 0 selects 0, 128 selects 2, 255 selects 3. -/
theorem claim1_theorem (s N : ℕ) (hs : s < 256) (hN1 : 1 ≤ N)
    (hN63 : N < 2 ^ 63) :
    charIdx s N < N ∧ (N ≤ 65793 → charIdx s N = s * N / 256) :=
  ⟨charIdx_lt s N hs (by omega) hN63,
   fun hN => charIdx_exact s N hs hN1 hN⟩

theorem claim1_witness : charIdx 128 4 < 4 ∧ charIdx 128 4 = 2 := by
  obtain ⟨h1, h2⟩ := claim1_theorem 128 4 (by norm_num) (by norm_num) (by norm_num)
  exact ⟨h1, (h2 (by norm_num)).trans (by norm_num)⟩

/-- Claim C2 (corrected).  The scan map built by `RenderData::new` does not
satisfy `xs[i] = floor(i * outW / gridW)` for all dimensions: with
`gridW = 3` and `outW = 12582913` the floating-point form gives
`xs = [0, 4194304, 8388609]` while `floor(2 * 12582913 / 3) = 8388608`. -/
theorem claim2_counterexample :
    (RenderData.new 3 1 12582913 1).x = [0, 4194304, 8388609] ∧
      2 * 12582913 / 3 = 8388608 := by
  constructor
  · with_unfolding_all decide
  · with_unfolding_all decide

/-- Claim C2 (amended).  For every `gridW ≥ 1` and output width, the scan
map entry `xs[i]` equals `floor(i * outW / gridW)` whenever the products
stay below `2^24` (so the `f32` arithmetic is exact; this covers all
realistic resolutions, e.g. `gridW = 4, outW = 16` gives `[0,4,8,12]` and
`gridW = 3, outW = 10` gives `[0,3,6]`); for larger values the
floating-point form can differ (see the counterexample). -/
theorem claim2_theorem (r_w r_h dst_w dst_h i : ℕ) (hg0 : 0 < r_w)
    (hg24 : r_w ≤ 2 ^ 24) (hi : i < r_w) (ha : i * dst_w < 2 ^ 24) :
    (RenderData.new r_w r_h dst_w dst_h).x[i]? = some (i * dst_w / r_w) := by
  unfold RenderData.new
  simp only [List.getElem?_map]
  rw [List.getElem?_range hi]
  simp only [Option.map_some']
  rw [scanCoord_exact i dst_w r_w hg0 hg24 hi ha]

theorem claim2_witness : (RenderData.new 3 1 10 1).x[2]? = some 6 := by
  have h := claim2_theorem 3 1 10 1 2 (by norm_num) (by norm_num) (by norm_num)
    (by norm_num)
  exact h.trans (by norm_num)

/-- Claim C8 (corrected).  The scan-map entries are not always `< outW`:
with `gridW = 2^25` and `outW = 3`, entry `xs[2^25 - 1]` is 3 (the `f32`
rounding of `33554431` to `33554432` makes the quotient land exactly on
`outW`), violating `xs[i] < outW`. -/
theorem claim8_counterexample :
    (RenderData.new 33554432 1 3 1).x[33554431]? = some 3 ∧ ¬(3 < 3) := by
  constructor
  · have hs : scanCoord 33554431 3 33554432 = 3 := by with_unfolding_all decide
    unfold RenderData.new
    simp only [List.getElem?_map]
    rw [List.getElem?_range (by norm_num : 33554431 < 33554432)]
    simp only [Option.map_some']
    rw [hs]
  · omega

/-- Claim C8 (amended).  For `gridW, gridH ≥ 1` and positive output
dimensions with `(gridW-1) * outW < 2^24` and `(gridH-1) * outH < 2^24`
(exactness range of the `f32` arithmetic), the scan map satisfies:
`xs[0] = 0`, `ys[0] = 0`, both sequences are non-decreasing, and every
entry of `xs` is `< outW` and of `ys` is `< outH`; outside that range an
entry can reach `outW` (see the counterexample). -/
theorem claim8_theorem (r_w r_h dst_w dst_h : ℕ)
    (hgw : 0 < r_w) (hgh : 0 < r_h) (hW : 0 < dst_w) (hH : 0 < dst_h)
    (hbw : (r_w - 1) * dst_w < 2 ^ 24) (hw24 : r_w ≤ 2 ^ 24)
    (hbh : (r_h - 1) * dst_h < 2 ^ 24) (hh24 : r_h ≤ 2 ^ 24) :
    (RenderData.new r_w r_h dst_w dst_h).x[0]? = some 0 ∧
    (RenderData.new r_w r_h dst_w dst_h).y[0]? = some 0 ∧
    (∀ (i j a b : ℕ), i ≤ j →
      (RenderData.new r_w r_h dst_w dst_h).x[i]? = some a →
      (RenderData.new r_w r_h dst_w dst_h).x[j]? = some b → a ≤ b) ∧
    (∀ (i j a b : ℕ), i ≤ j →
      (RenderData.new r_w r_h dst_w dst_h).y[i]? = some a →
      (RenderData.new r_w r_h dst_w dst_h).y[j]? = some b → a ≤ b) ∧
    (∀ (i a : ℕ), (RenderData.new r_w r_h dst_w dst_h).x[i]? = some a → a < dst_w) ∧
    (∀ (i a : ℕ), (RenderData.new r_w r_h dst_w dst_h).y[i]? = some a → a < dst_h) := by
  have hzero : ∀ (g W : ℕ), 0 < g →
      ((List.range g).map fun c => scanCoord c W g)[0]? = some 0 := by
    intro g W hg
    simp only [List.getElem?_map]
    rw [List.getElem?_range hg]
    simp only [Option.map_some']
    rw [scanCoord_zero]
  have hmono : ∀ (g W : ℕ), g ≤ 2 ^ 24 → (g - 1) * W < 2 ^ 24 →
      ∀ (i j a b : ℕ), i ≤ j →
      ((List.range g).map fun c => scanCoord c W g)[i]? = some a →
      ((List.range g).map fun c => scanCoord c W g)[j]? = some b → a ≤ b := by
    intro g W hg24 hb i j a b hij ha hbj
    obtain ⟨hi, rfl⟩ := scanCoordList_entry g W i a hg24 hb ha
    obtain ⟨hj, rfl⟩ := scanCoordList_entry g W j b hg24 hb hbj
    exact Nat.div_le_div_right (Nat.mul_le_mul_right W hij)
  have hlt : ∀ (g W : ℕ), 0 < W → g ≤ 2 ^ 24 → (g - 1) * W < 2 ^ 24 →
      ∀ (i a : ℕ), ((List.range g).map fun c => scanCoord c W g)[i]? = some a →
      a < W := by
    intro g W hW0 hg24 hb i a ha
    obtain ⟨hi, rfl⟩ := scanCoordList_entry g W i a hg24 hb ha
    have h1 : i * W < g * W := (Nat.mul_lt_mul_right hW0).mpr hi
    have h2 : i * W < W * g := by
      rw [Nat.mul_comm W g]
      exact h1
    exact (Nat.div_lt_iff_lt_mul (by omega)).mpr h2
  exact ⟨hzero r_w dst_w hgw, hzero r_h dst_h hgh,
    hmono r_w dst_w hw24 hbw, hmono r_h dst_h hh24 hbh,
    hlt r_w dst_w hW hw24 hbw, hlt r_h dst_h hH hh24 hbh⟩

theorem claim8_witness :
    (RenderData.new 3 2 10 8).x[0]? = some 0 ∧ (6 : ℕ) < 10 := by
  obtain ⟨h1, h2, h3, h4, h5, h6⟩ := claim8_theorem 3 2 10 8 (by norm_num)
    (by norm_num) (by norm_num) (by norm_num) (by norm_num) (by norm_num)
    (by norm_num) (by norm_num)
  refine ⟨h1, h5 2 6 ?_⟩
  with_unfolding_all decide

/-- Claim C3 (corrected).  The auto-fit sizing loop in `construct_char_set`
is an unbounded `while glyphs_height > font_h` loop: there is no iteration
cap and no `FontFitDidNotConverge` failure anywhere in the code.  With a
rasterizer that always measures height `17` at target `16`, the loop is
still running after 17 and after 20 iterations (and forever), producing no
error. -/
theorem claim3_counterexample :
    sizing (fun _ => (1, 17)) 16 17 = none ∧ sizing (fun _ => (1, 17)) 16 20 = none :=
  ⟨sizing_stuck 16 1 17, sizing_stuck 16 1 20⟩

/-- Claim C3 (amended).  The sizing loop has no iteration bound and no
`FontFitDidNotConverge` outcome: whenever it does terminate, the final
measured height satisfies `measuredH ≤ targetCellHeight`, but for an
adversarial rasterizer (constant measured height `fontH + 1`) it never
terminates, for any amount of fuel. -/
theorem claim3_theorem :
    (∀ (m : Option ℚ → ℕ × ℕ) (fontH fuel : ℕ) (adj : Option ℚ) (w h : ℕ)
      (sz : Option ℚ) (w' h' : ℕ),
      fitLoop m fontH fuel adj w h = some (sz, w', h') → h' ≤ fontH) ∧
    (∀ fontH fuel : ℕ, sizing (fun _ => (1, fontH + 1)) fontH fuel = none) :=
  ⟨fun m fontH fuel adj w h sz w' h' heq => fitLoop_le m fontH fuel adj w h sz w' h' heq,
   fun fontH fuel => sizing_stuck fontH 1 fuel⟩

theorem claim3_witness :
    fitLoop (fun _ => ((2 : ℕ), (3 : ℕ))) 5 1 (some 5) 2 3 = some (some 5, 2, 3) ∧
      (3 : ℕ) ≤ 5 := by
  constructor
  · with_unfolding_all decide
  · exact claim3_theorem.1 (fun _ => (2, 3)) 5 1 (some 5) 2 3 (some 5) 2 3
      (by with_unfolding_all decide)

/-- Claim C4 (confirmed).  At end of stream the pipeline emits, in order:
the decoder end signal, all frames still buffered in the decoder (drained
through the compositor into the encoder), the encoder end signal, all
packets for the frames buffered in the encoder (including those just
drained), and only then the container trailer — the trailer is the final
event, after both drains are exhausted. -/
theorem claim4_theorem (comp : ℕ → ℕ) (decPending encBuf : List ℕ) :
    closeFile comp decPending encBuf =
      PEv.decEof :: ((decPending.map fun f => PEv.sendFrame (comp f)) ++
        PEv.encEof :: (((encBuf ++ decPending.map comp).map PEv.writePkt) ++
          [PEv.trailer])) := by
  unfold closeFile
  rw [decodeFramesEnd_spec comp decPending encBuf, encodeFramesEnd_spec]
  simp

/-- Claim C5 (confirmed).  Under the pipeline's derived dimensions
(`cellW ≥ 1`, `gridW = outW / cellW`, `cellH ≤ outH / gridH`, glyph
bitmaps at most `cellW × cellH`, scan maps `xs[i] = i*outW/gridW` and
`ys[j] = j*outH/gridH`, luminance plane of `strideS * gridH` samples with
`gridW ≤ strideS`, output plane of `strideO * outH` bytes with
`outW ≤ strideO`), the compositing pass performs no out-of-bounds slice
access: every checked access succeeds, so `composite` returns a result
(`none` would model a panic). -/
theorem claim5_theorem (lum : List ℕ) (cs : List (List (List ℕ))) (buf : List ℕ)
    (cellW cellH gridW gridH outW outH strideO strideS : ℕ)
    (hcw : 0 < cellW) (hgw : gridW = outW / cellW) (hch : cellH ≤ outH / gridH)
    (hcs : ∀ gl ∈ cs, gl.length ≤ cellH ∧ ∀ l ∈ gl, l.length ≤ cellW)
    (hN : 0 < cs.length) (hN' : cs.length < 2 ^ 63)
    (hv : ∀ v ∈ lum, v < 256)
    (hlum : strideS * gridH ≤ lum.length) (hpads : gridW ≤ strideS)
    (hso : outW ≤ strideO) (hbuf : strideO * outH ≤ buf.length) :
    (composite lum cs ((List.range gridW).map fun c => c * outW / gridW)
      ((List.range gridH).map fun r => r * outH / gridH) strideO strideS buf).isSome
      = true :=
  composite_some lum cs buf cellW cellH gridW gridH outW outH strideO strideS
    hcw hgw hch hcs hN hN' hv hlum hpads hso hbuf

theorem claim5_witness :
    (composite [0, 1, 2, 3] [[[255]]] ((List.range 2).map fun c => c * 2 / 2)
      ((List.range 2).map fun r => r * 2 / 2) 2 2 (List.replicate 4 0)).isSome
      = true :=
  claim5_theorem [0, 1, 2, 3] [[[255]]] (List.replicate 4 0) 1 1 2 2 2 2 2 2
    (by norm_num) (by norm_num) (by norm_num) (by decide) (by decide)
    (by norm_num) (by decide) (by decide) (by decide) (by decide) (by decide)

/-- Claim C6 (confirmed).  Whenever the sizing phase converges (returns a
size with measured width `w` and height `h`), every glyph bitmap in the
rendered atlas has exactly `h` rows of exactly `w` entries each, and the
shared height `h` (the maximum ink-box height at the converged size) is at
most the target cell height. -/
theorem claim6_theorem (m : Option ℚ → ℕ × ℕ) (fontH fuel : ℕ)
    (gws : List (Option (List (ℕ × ℕ × Bool)))) (sz : Option ℚ) (w h : ℕ)
    (hconv : sizing m fontH fuel = some (sz, w, h)) :
    ((renderAtlas w h gws).all fun bmp =>
      bmp.length == h && bmp.all fun r => r.length == w) = true ∧ h ≤ fontH := by
  constructor
  · rw [List.all_eq_true]
    intro bmp hbmp
    obtain ⟨h1, h2⟩ := renderAtlas_dims w h gws bmp hbmp
    rw [Bool.and_eq_true, beq_iff_eq, List.all_eq_true]
    exact ⟨h1, fun r hr => beq_iff_eq.mpr (h2 r hr)⟩
  · unfold sizing at hconv
    exact fitLoop_le m fontH fuel _ _ _ sz w h hconv

theorem claim6_witness :
    ((renderAtlas 2 5 [none, some [(0, 0, true), (3, 7, false)]]).all fun bmp =>
      bmp.length == 5 && bmp.all fun r => r.length == 2) = true ∧ (5 : ℕ) ≤ 5 :=
  claim6_theorem (fun _ => (2, 5)) 5 1 [none, some [(0, 0, true), (3, 7, false)]]
    (some 5) 2 5 (by with_unfolding_all decide)

/-- Claim C7 (confirmed).  The template frame's two chroma planes are
filled with the neutral value 127 once at construction, and compositing
any sequence of frames rewrites only the luminance plane: after any
successful run the chroma planes still hold their initial neutral fill. -/
theorem claim7_theorem (cs : List (List (List ℕ))) (xs ys : List ℕ)
    (stride strideS yLen cbLen crLen : ℕ) (lums : List (List ℕ)) (f' : OutFrame)
    (h : processAll cs xs ys stride strideS lums (outFrameNew yLen cbLen crLen)
      = some f') :
    (outFrameNew yLen cbLen crLen).cb = List.replicate cbLen 127 ∧
    (outFrameNew yLen cbLen crLen).cr = List.replicate crLen 127 ∧
    f'.cb = List.replicate cbLen 127 ∧ f'.cr = List.replicate crLen 127 := by
  obtain ⟨h1, h2⟩ := processAll_chroma cs xs ys stride strideS lums _ f' h
  exact ⟨rfl, rfl, h1, h2⟩

theorem claim7_witness :
    (OutFrame.mk [9] [127] [127]).cb = List.replicate 1 127 ∧
    (OutFrame.mk [9] [127] [127]).cr = List.replicate 1 127 := by
  have h := claim7_theorem [[[9]]] [0] [0] 1 1 1 1 1 [[0]]
    (OutFrame.mk [9] [127] [127]) (by with_unfolding_all decide)
  exact ⟨h.2.2.1, h.2.2.2⟩

/-- Claim C9 (corrected).  When the measured ink height at the trial size
is 0, `construct_char_set` does not fail with `EmptyCharacterSet` (the
code has no such error path): it divides by zero — yielding a non-finite
`f32` trial size, modelled as `none` — and proceeds to re-measure at that
size.  With a rasterizer measuring 0 everywhere, construction even
"converges" successfully at the non-finite size with height 0. -/
theorem claim9_counterexample :
    sizing (fun _ => ((0 : ℕ), (0 : ℕ))) 16 1 = some (none, 0, 0) := by
  with_unfolding_all decide

/-- Claim C9 (amended).  If the initial measurement returns height 0, the
scale correction `font_h^2 / measuredH` divides by zero: the adjusted size
is the non-finite value (`none`) and construction proceeds by measuring at
that size, with no `EmptyCharacterSet` (or any other) failure. -/
theorem claim9_theorem (m : Option ℚ → ℕ × ℕ) (fontH : ℕ)
    (h : (m (some (rnd32 (fontH : ℚ)))).2 = 0) :
    sizingInit m fontH = (none, (m none).1, (m none).2) :=
  sizingInit_zero m fontH h

theorem claim9_witness :
    sizingInit (fun _ => ((0 : ℕ), (0 : ℕ))) 16 = (none, 0, 0) := by
  have h := claim9_theorem (fun _ => ((0 : ℕ), (0 : ℕ))) 16 rfl
  simpa using h

/-- Claim C10 (corrected).  Chapters are not copied verbatim: the loop
copies a chapter only `if let Some(title) = chapter.metadata().get("title")`,
so a chapter without a `"title"` metadata entry is dropped entirely — here
a chapter whose metadata is `[("artist", "x")]` does not appear in the
output at all. -/
theorem claim10_counterexample :
    (writeHeaderData [⟨7, (1, 1000), 0, 60, [("artist", "x")]⟩] []).chapters = []
      ∧ (⟨7, (1, 1000), 0, 60, [("artist", "x")]⟩ : Chapter)
        ∉ (writeHeaderData [⟨7, (1, 1000), 0, 60, [("artist", "x")]⟩] []).chapters := by
  constructor
  · rfl
  · intro hmem
    simp [writeHeaderData, copyChapters] at hmem

/-- Claim C10 (amended).  Container-level metadata is copied verbatim; a
chapter is copied only when it has a `"title"` metadata entry, and then
its id, timebase, start and end are preserved while its metadata is
reduced to just that title entry; chapters without a title are dropped. -/
theorem claim10_theorem (chs : List Chapter) (md : List (String × String))
    (c : Chapter) (t : String) (hc : c ∈ chs)
    (ht : c.metadata.lookup "title" = some t) :
    (writeHeaderData chs md).metadata = md ∧
    (⟨c.id, c.timeBase, c.start, c.stop, [("title", t)]⟩ : Chapter)
      ∈ (writeHeaderData chs md).chapters := by
  refine ⟨rfl, ?_⟩
  unfold writeHeaderData copyChapters
  simp only [List.mem_filterMap]
  exact ⟨c, hc, by rw [ht]; rfl⟩

theorem claim10_witness :
    (writeHeaderData [⟨7, (1, 1000), 0, 60, [("title", "intro")]⟩]
      [("encoder", "x")]).metadata = [("encoder", "x")] ∧
    (⟨7, (1, 1000), 0, 60, [("title", "intro")]⟩ : Chapter)
      ∈ (writeHeaderData [⟨7, (1, 1000), 0, 60, [("title", "intro")]⟩]
        [("encoder", "x")]).chapters := by
  have h := claim10_theorem [⟨7, (1, 1000), 0, 60, [("title", "intro")]⟩]
    [("encoder", "x")] ⟨7, (1, 1000), 0, 60, [("title", "intro")]⟩ "intro"
    (by simp) (by rfl)
  exact h
